import Mathlib

/-!
Verification of the VPK archive library (package `vpk`).

Byte streams are modelled as `List Nat` (each element one byte, `< 256`
where it matters).  Go strings that hold path components are modelled as
byte lists as well.  Machine integers are modelled as `Nat` (for `uint16`,
`uint32`) and `Int` (for `int16`, `int64`), with wrap-around written out
explicitly (`% 2^32`, two's complement for `int16`) at the points where
the Go code performs fixed-width arithmetic.
-/

/-- Little-endian encoding of a `uint16` (`encoding/binary` LittleEndian). -/
def le16 (n : Nat) : List Nat := [n % 256, n / 256 % 256]

/-- Little-endian encoding of a `uint32` (`encoding/binary` LittleEndian). -/
def le32 (n : Nat) : List Nat :=
  [n % 256, n / 256 % 256, n / 65536 % 256, n / 16777216 % 256]

/-- Little-endian decoding of a byte list into a natural number. -/
def decLe : List Nat → Nat
  | [] => 0
  | b :: r => b + 256 * decLe r

/-- Two's-complement wrap of an `Int` into the `int16` range, modelling
Go's `int16` overflow on `archive++`. -/
def wrap16 (n : Int) : Int := (n + 32768) % 65536 - 32768

/-- One bit step of the reflected IEEE CRC-32 (polynomial `0xEDB88320`),
as in Go's `hash/crc32` with the IEEE table. -/
def crc32Bit (c : Nat) : Nat :=
  if c % 2 = 1 then (c / 2) ^^^ 0xEDB88320 else c / 2

/-- Fold one byte into the running CRC-32 state. -/
def crc32Byte (c b : Nat) : Nat :=
  crc32Bit (crc32Bit (crc32Bit (crc32Bit
    (crc32Bit (crc32Bit (crc32Bit (crc32Bit (c ^^^ b % 256))))))))

/-- IEEE CRC-32 of a byte list (`crc32.NewIEEE` / `Sum32`). -/
def crc32 (data : List Nat) : Nat :=
  (data.foldl crc32Byte 0xFFFFFFFF) ^^^ 0xFFFFFFFF

/-- Go byte-string comparison `x < y` (lexicographic on bytes, a proper
prefix is smaller), used by `entrysort.less`. -/
def ltBytes : List Nat → List Nat → Bool
  | [], [] => false
  | [], _ :: _ => true
  | _ :: _, [] => false
  | a :: as, b :: bs =>
    if a < b then true
    else if b < a then false
    else ltBytes as bs

/-- On-disk directory record, Go struct `vpkentry` (`CRC uint32`,
`PreloadBytes uint16`, `ArchiveIndex int16`, `Offset uint32`,
`Length uint32`, `Terminator uint16`). -/
structure vpkentry where
  CRC : Nat
  PreloadBytes : Nat
  ArchiveIndex : Int
  Offset : Nat
  Length : Nat
  Terminator : Nat
deriving DecidableEq

/-- Go struct `entrypath`: a split path key (`dir`, `base`, `ext`, each a
byte string) together with the directory record and preload bytes. -/
structure entrypath where
  dir : List Nat
  base : List Nat
  ext : List Nat
  vpk : vpkentry
  pre : List Nat
deriving DecidableEq

/-- Go `entrysort.less`: radix comparison on `ext`, then `dir`, then
`base`. -/
def entryLess (x y : entrypath) : Bool :=
  if ltBytes x.ext y.ext then true
  else if ltBytes y.ext x.ext then false
  else if ltBytes x.dir y.dir then true
  else if ltBytes y.dir x.dir then false
  else ltBytes x.base y.base

/-- The non-strict order `x` before-or-tied-with `y` that a Go
`sort.Sort` with `entrysort.Less` establishes between adjacent elements
of its output. -/
def entryLE (x y : entrypath) : Prop := entryLess y x = false

instance : DecidableRel entryLE := fun x y => by
  unfold entryLE; infer_instance

/-- Insert into a sorted list, keeping order (used to model the
comparison sort `sort.Sort(entrysort)`; only the sorting contract of
`sort.Sort` matters to the library). -/
def orderedInsertE (e : entrypath) : List entrypath → List entrypath
  | [] => [e]
  | x :: xs => if entryLess e x then e :: x :: xs else x :: orderedInsertE e xs

/-- Model of `sort.Sort(vpk.entries)`: a comparison sort by
`entrysort.Less`. -/
def sortEntries (l : List entrypath) : List entrypath :=
  l.foldr orderedInsertE []

/-- Strictly sorted by `(ext, dir, base)` — adjacent entries strictly
increasing, hence no duplicate keys. -/
def strictlySortedB : List entrypath → Bool
  | [] => true
  | [_] => true
  | a :: b :: r => entryLess a b && strictlySortedB (b :: r)

/-! ### Reading primitives of `Open` (bufio + encoding/binary) -/

/-- Go `br.ReadString(0)` followed by stripping the delimiter: read bytes
up to and including the first `0`, return the bytes before it and the
rest of the stream; `none` models the EOF error when no delimiter is
found. -/
def readString : List Nat → Option (List Nat × List Nat)
  | [] => none
  | b :: rest =>
    if b = 0 then some ([], rest)
    else
      match readString rest with
      | none => none
      | some (s, r) => some (b :: s, r)

/-- Read exactly `n` bytes (`io.ReadFull`); `none` models the EOF
error. -/
def readN (n : Nat) (l : List Nat) : Option (List Nat × List Nat) :=
  if n ≤ l.length then some (l.take n, l.drop n) else none

/-- `binary.Read(br, binary.LittleEndian, &e)` for the 18-byte
little-endian `vpkentry` record: `crc u32, preloadBytes u16,
archiveIndex i16 (two's complement), offset u32, length u32,
terminator u16`; `none` models the EOF error. -/
def readRecord (l : List Nat) : Option (vpkentry × List Nat) :=
  match l with
  | b0 :: b1 :: b2 :: b3 :: b4 :: b5 :: b6 :: b7 :: b8 :: b9 ::
    b10 :: b11 :: b12 :: b13 :: b14 :: b15 :: b16 :: b17 :: r =>
    some (⟨b0 + 256 * b1 + 65536 * b2 + 16777216 * b3,
           b4 + 256 * b5,
           (if b6 + 256 * b7 < 32768 then ((b6 + 256 * b7 : Nat) : Int)
            else ((b6 + 256 * b7 : Nat) : Int) - 65536),
           b8 + 256 * b9 + 65536 * b10 + 16777216 * b11,
           b12 + 256 * b13 + 65536 * b14 + 16777216 * b15,
           b16 + 256 * b17⟩, r)
  | _ => none

theorem readString_length {l s r : List Nat} (h : readString l = some (s, r)) :
    r.length < l.length := by
  induction l generalizing s r with
  | nil => simp [readString] at h
  | cons b rest ih =>
    simp only [readString] at h
    split at h
    · simp only [Option.some.injEq, Prod.mk.injEq] at h
      simp [← h.2]
    · revert h
      match hrec : readString rest with
      | none => intro h; simp at h
      | some (s', r') =>
        intro h
        simp only [Option.some.injEq, Prod.mk.injEq] at h
        have := ih hrec
        simp [← h.2]
        omega

theorem readN_length {n : Nat} {l s r : List Nat} (h : readN n l = some (s, r)) :
    r.length ≤ l.length := by
  unfold readN at h
  split at h
  · simp only [Option.some.injEq, Prod.mk.injEq] at h
    simp [← h.2]
  · simp at h

theorem readRecord_length {l r : List Nat} {e : vpkentry}
    (h : readRecord l = some (e, r)) : r.length ≤ l.length := by
  unfold readRecord at h
  split at h
  · simp only [Option.some.injEq, Prod.mk.injEq] at h
    obtain ⟨-, h2⟩ := h
    subst h2
    simp
    omega
  · simp at h

/-! ### The directory-tree parsing loop of `Open` (vpk.go lines 250-311).

`parseBases` is the innermost Go loop (base names inside one
extension/directory group), `parseDirs` the middle loop, `parseTree` the
outer loop.  Each returns the entries read in stream order and, for the
two inner loops, the unconsumed remainder of the stream. -/

inductive OpenError where
  | ioError
  | invalidMagic
  | unsupportedVersion (v : Nat)
  | invalidEntry (dir base ext : List Nat)
deriving DecidableEq

def parseBases (ext dir : List Nat) (input : List Nat) :
    Except OpenError (List entrypath × List Nat) :=
  match hb : readString input with
  | none => .error .ioError
  | some (base, rest) =>
    if base = [] then .ok ([], rest)
    else
      match hr : readRecord rest with
      | none => .error .ioError
      | some (e, rest2) =>
        if e.ArchiveIndex < 0 ∨ e.Terminator ≠ 0xffff then
          .error (.invalidEntry dir base ext)
        else
          match hp : readN e.PreloadBytes rest2 with
          | none => .error .ioError
          | some (pre, rest3) =>
            match parseBases ext dir rest3 with
            | .error err => .error err
            | .ok (es, rest4) =>
              .ok (⟨dir, base, ext, e, pre⟩ :: es, rest4)
termination_by input.length
decreasing_by
  exact Nat.lt_of_le_of_lt (Nat.le_trans (readN_length hp) (readRecord_length hr))
    (readString_length hb)

theorem parseBases_length_aux {ext dir : List Nat} :
    ∀ (n : Nat) (input : List Nat), input.length ≤ n →
      ∀ {es : List entrypath} {r : List Nat},
        parseBases ext dir input = .ok (es, r) → r.length ≤ input.length := by
  intro n
  induction n with
  | zero =>
    intro input hlen es r h
    match input, hlen with
    | [], _ => rw [parseBases.eq_def] at h; simp [readString] at h
  | succ n ih =>
    intro input hlen es r h
    rw [parseBases.eq_def] at h
    split at h
    · simp at h
    rename_i base rest hb
    split at h
    · simp only [Except.ok.injEq, Prod.mk.injEq] at h
      obtain ⟨-, h2⟩ := h
      subst h2
      have := readString_length hb
      omega
    split at h
    · simp at h
    rename_i e rest2 hr
    split at h
    · simp at h
    split at h
    · simp at h
    rename_i pre rest3 hp
    split at h
    · simp at h
    rename_i es4 rest4 hrec
    simp only [Except.ok.injEq, Prod.mk.injEq] at h
    obtain ⟨-, h2⟩ := h
    subst h2
    have hlt : rest3.length < input.length :=
      Nat.lt_of_le_of_lt (Nat.le_trans (readN_length hp) (readRecord_length hr))
        (readString_length hb)
    have := ih rest3 (by omega) hrec
    omega

theorem parseBases_length {ext dir input : List Nat} {es : List entrypath}
    {r : List Nat} (h : parseBases ext dir input = .ok (es, r)) :
    r.length ≤ input.length :=
  parseBases_length_aux input.length input (Nat.le_refl _) h

def parseDirs (ext : List Nat) (input : List Nat) :
    Except OpenError (List entrypath × List Nat) :=
  match hd : readString input with
  | none => .error .ioError
  | some (dir, rest) =>
    if dir = [] then .ok ([], rest)
    else
      match hbs : parseBases ext dir rest with
      | .error err => .error err
      | .ok (es, rest2) =>
        match parseDirs ext rest2 with
        | .error err => .error err
        | .ok (es2, rest3) => .ok (es ++ es2, rest3)
termination_by input.length
decreasing_by
  exact Nat.lt_of_le_of_lt (parseBases_length hbs) (readString_length hd)

theorem parseDirs_length_aux {ext : List Nat} :
    ∀ (n : Nat) (input : List Nat), input.length ≤ n →
      ∀ {es : List entrypath} {r : List Nat},
        parseDirs ext input = .ok (es, r) → r.length ≤ input.length := by
  intro n
  induction n with
  | zero =>
    intro input hlen es r h
    match input, hlen with
    | [], _ => rw [parseDirs.eq_def] at h; simp [readString] at h
  | succ n ih =>
    intro input hlen es r h
    rw [parseDirs.eq_def] at h
    split at h
    · simp at h
    rename_i dir rest hd
    split at h
    · simp only [Except.ok.injEq, Prod.mk.injEq] at h
      obtain ⟨-, h2⟩ := h
      subst h2
      have := readString_length hd
      omega
    split at h
    · simp at h
    rename_i es1 rest2 hbs
    split at h
    · simp at h
    rename_i es2 rest3 hrec
    simp only [Except.ok.injEq, Prod.mk.injEq] at h
    obtain ⟨-, h2⟩ := h
    subst h2
    have hle : rest2.length < input.length :=
      Nat.lt_of_le_of_lt (parseBases_length hbs) (readString_length hd)
    have := ih rest2 (by omega) hrec
    omega

theorem parseDirs_length {ext input : List Nat} {es : List entrypath}
    {r : List Nat} (h : parseDirs ext input = .ok (es, r)) :
    r.length ≤ input.length :=
  parseDirs_length_aux input.length input (Nat.le_refl _) h

def parseTree (input : List Nat) : Except OpenError (List entrypath) :=
  match he : readString input with
  | none => .error .ioError
  | some (ext, rest) =>
    if ext = [] then .ok []
    else
      match hds : parseDirs ext rest with
      | .error err => .error err
      | .ok (es, rest2) =>
        match parseTree rest2 with
        | .error err => .error err
        | .ok es2 => .ok (es ++ es2)
termination_by input.length
decreasing_by
  exact Nat.lt_of_le_of_lt (parseDirs_length hds) (readString_length he)

instance {t a : Type} [DecidableEq t] [DecidableEq a] : DecidableEq (Except t a) :=
  fun x y =>
    match x, y with
    | .error u, .error v =>
      if h : u = v then .isTrue (by rw [h]) else .isFalse (by simp [h])
    | .ok u, .ok v =>
      if h : u = v then .isTrue (by rw [h]) else .isFalse (by simp [h])
    | .error _, .ok _ => .isFalse (by simp)
    | .ok _, .error _ => .isFalse (by simp)

/-- The container built by `Open`: format version, tree byte length and
the sorted entry list (`modtime` and the opener capability carry no
logic and are omitted). -/
structure VPKData where
  version : Nat
  treeLength : Nat
  entries : List entrypath
deriving DecidableEq

/-- Go `Open` (vpk.go lines 205-316): read magic, version and tree
length, run the tree-parsing loop, then `sort.Sort(vpk.entries)`. -/
def openVPK (input : List Nat) : Except OpenError VPKData :=
  match readN 4 input with
  | none => .error .ioError
  | some (m, r1) =>
    if decLe m ≠ 0x55aa1234 then .error .invalidMagic
    else
      match readN 4 r1 with
      | none => .error .ioError
      | some (vb, r2) =>
        if decLe vb ≠ 1 then .error (.unsupportedVersion (decLe vb))
        else
          match readN 4 r2 with
          | none => .error .ioError
          | some (tb, r3) =>
            match parseTree r3 with
            | .error err => .error err
            | .ok es => .ok ⟨decLe vb, decLe tb, sortEntries es⟩

/-! ### The tree serializer of `Create` (vpk.go lines 377-423).

`Create` appends a zero `entrypath` sentinel to the sorted list, writes
the first entry's `ext`, `dir` and `base` strings, and then for each
entry writes its 18-byte record followed by the group-transition
strings that compare the entry with its successor.  `encodeTail e rest`
is the byte stream the loop produces after having written `e`'s record
... transition to the first element of `rest` (or to the sentinel when
`rest` is empty, where the `next.ext == ""` case breaks the loop). -/

/-- Go `writeString`: the string's bytes followed by a 0 terminator. -/
def writeString (s : List Nat) : List Nat := s ++ [0]

/-- `binary.Write(&buf, binary.LittleEndian, e.vpk)`: the 18-byte
little-endian record. -/
def encodeRecord (e : vpkentry) : List Nat :=
  le32 e.CRC ++ le16 e.PreloadBytes ++ le16 (e.ArchiveIndex % 65536).toNat ++
    le32 e.Offset ++ le32 e.Length ++ le16 e.Terminator

def encodeTail : entrypath → List entrypath → List Nat
  | e, [] =>
    -- next is the zero sentinel: its dir/base/ext are all empty
    if e.dir = [] ∧ e.ext = [] then writeString []
    else if e.ext = [] then writeString [] ++ writeString [] ++ writeString []
    else writeString [] ++ writeString [] ++ writeString []
  | e, n :: rest =>
    if e.dir = n.dir ∧ e.ext = n.ext then
      writeString n.base ++ encodeRecord n.vpk ++ encodeTail n rest
    else if e.ext = n.ext then
      writeString [] ++ writeString n.dir ++
        writeString n.base ++ encodeRecord n.vpk ++ encodeTail n rest
    else
      writeString [] ++ writeString [] ++ writeString n.ext ++
        (if n.ext = [] then []
         else writeString n.dir ++
           writeString n.base ++ encodeRecord n.vpk ++ encodeTail n rest)

/-- The tree byte buffer `buf` built by `Create` from the sorted entry
list. -/
def encodeTree : List entrypath → List Nat
  | [] => writeString [] ++ writeString [] ++ writeString []
  | e :: rest =>
    writeString e.ext ++ writeString e.dir ++ writeString e.base ++
      encodeRecord e.vpk ++ encodeTail e rest

/-! ### The write path `Create` (vpk.go lines 318-514). -/

inductive CreateError where
  | fileTooBig
deriving DecidableEq

/-- A logical file handed to `Create`: its path key (the result of
`splitPath(c.Rel())`) and its contents.  `Open` of a source entry is
re-openable with identical contents, so the byte list stands for every
read of the file. -/
structure SrcFile where
  dir : List Nat
  base : List Nat
  ext : List Nat
  data : List Nat
deriving DecidableEq

/-- Pass 1 of `Create` (vpk.go lines 328-375): for each source file
compute CRC and length, record `(ArchiveIndex, Offset)` from the running
state, fail with `FileTooBig` on 32-bit overflow, and advance the
running `uint32` offset and `int16` archive counter.  Returns each built
`entrypath` paired with the file's contents (the `ent` field). -/
def passOneGo (maxSize : Int) (archive : Int) (offset : Nat) :
    List SrcFile → Except CreateError (List (entrypath × List Nat))
  | [] => .ok []
  | c :: rest =>
    let length := c.data.length
    if 2 ^ 32 ≤ length then .error .fileTooBig
    else
      let e : vpkentry :=
        ⟨crc32 c.data, 0, archive, offset, length, 0xffff⟩
      if (offset + length) % 2 ^ 32 < offset then .error .fileTooBig
      else
        let offset2 : Nat := (offset + length) % 2 ^ 32
        let st : Int × Nat :=
          if 0 ≤ maxSize ∧ maxSize ≤ (offset2 : Int) then (wrap16 (archive + 1), 0)
          else (archive, offset2)
        match passOneGo maxSize st.1 st.2 rest with
        | .error err => .error err
        | .ok l => .ok ((⟨c.dir, c.base, c.ext, e, []⟩, c.data) :: l)

/-- Pass 1 of `Create` from its initial state: `archive` starts at the
sentinel `0x7fff` when `maxSize < 0` (unbounded) and at `0` otherwise,
`offset` starts at `0`. -/
def createPassOne (maxSize : Int) (files : List SrcFile) :
    Except CreateError (List (entrypath × List Nat)) :=
  passOneGo maxSize (if maxSize < 0 then 0x7fff else 0) 0 files

/-- `Create` (vpk.go lines 318-514) restricted to the bytes written to
the main file: pass 1, sort a copy of the entries, serialize the tree,
guard the tree length, then write header, tree and — in unbounded mode —
every file's payload in the caller-supplied `entries` order (the pass-3
loop `for _, e := range entries` iterates the unsorted slice).  In
bounded mode payloads go to the side archives, so the main file ends
after the tree.  The `copyFile` CRC and length re-checks compare the
re-read contents with pass 1's and always pass in this model because a
source file's bytes are the same on every open. -/
def Create (maxSize : Int) (files : List SrcFile) :
    Except CreateError (List Nat) :=
  match createPassOne maxSize files with
  | .error err => .error err
  | .ok l =>
    let sorted := sortEntries (l.map (·.1))
    let buf := encodeTree sorted
    if 2 ^ 32 ≤ buf.length then .error .fileTooBig
    else
      .ok (le32 0x55aa1234 ++ le32 1 ++ le32 buf.length ++ buf ++
        (if maxSize < 0 then (l.map (·.2)).flatten else []))

/-! ### Entry resolution (`vpkFileEntry.Open`, vpk.go lines 126-155). -/

/-- The file-access capability: contents of the main file and of each
numbered archive. -/
structure OpenerData where
  main : List Nat
  archive : Int → List Nat

/-- A seekable read handle: contents plus current position. -/
structure FileH where
  data : List Nat
  pos : Nat

/-- `f.Seek(n, os.SEEK_CUR)`. -/
def seekCur (f : FileH) (n : Nat) : FileH := ⟨f.data, f.pos + n⟩

/-- `io.LimitReader(f, n)` read to exhaustion from the current
position. -/
def readLimit (f : FileH) (n : Nat) : List Nat := (f.data.drop f.pos).take n

/-- `vpkFileEntry.Open`: the bytes the returned stream yields, paired
with whether a file handle was acquired.  `e.Length == 0` returns just
the preload buffer without touching the opener; the sentinel archive
index `0x7fff` reads from the main file after `Seek(12+treeLength)` then
`Seek(Offset)` from the start; any other index reads from that numbered
archive after `Seek(Offset)` from the start. -/
def vpkFileEntryOpen (o : OpenerData) (treeLength : Nat) (e : vpkentry)
    (pre : List Nat) : List Nat × Bool :=
  if e.Length = 0 then (pre, false)
  else if e.ArchiveIndex = 0x7fff then
    let f := seekCur (seekCur ⟨o.main, 0⟩ (12 + treeLength)) e.Offset
    (pre ++ readLimit f e.Length, true)
  else
    let f := seekCur ⟨o.archive e.ArchiveIndex, 0⟩ e.Offset
    (pre ++ readLimit f e.Length, true)

/-- The entry-resolution contract as the specification words it: stream
is the preload buffer alone when `length == 0` (no file handle), else
preload followed by `length` bytes taken at main-file position
`12 + treeLength + offset` (sentinel) or at position `offset` of
numbered archive `archiveIndex` (otherwise). -/
def entryStreamSpec (o : OpenerData) (treeLength : Nat) (e : vpkentry)
    (pre : List Nat) : List Nat × Bool :=
  if e.Length = 0 then (pre, false)
  else if e.ArchiveIndex = 0x7fff then
    (pre ++ (o.main.drop (12 + treeLength + e.Offset)).take e.Length, true)
  else
    (pre ++ ((o.archive e.ArchiveIndex).drop e.Offset).take e.Length, true)

/-! ### The CRC-verifying stream wrapper `crcReader`. -/

inductive VpkError where
  | crcMismatch (actual expected : Nat)
  | ioError
deriving DecidableEq

/-- The hash state a `crcReader` holds: every byte delivered to the
caller so far has been tee'd into it. -/
structure CrcReaderState where
  consumed : List Nat
deriving DecidableEq

/-- A `Read` on the wrapped stream (`io.TeeReader(r, hash)`): the chunk
read from `r` is handed to the caller unchanged and appended to the hash
state; reading never performs the CRC comparison. -/
def crcRead (s : CrcReaderState) (chunk : List Nat) :
    CrcReaderState × List Nat :=
  (⟨s.consumed ++ chunk⟩, chunk)

/-- `Close` of a `crcReader`: call the wrapped close function first and
return its error if any; otherwise compare the accumulated CRC-32 with
the expected value and return `ErrCRCMismatch{actual, expected}` on
disagreement, nil on agreement. -/
def crcClose (s : CrcReaderState) (closeErr : Option VpkError) (crc : Nat) :
    Option VpkError :=
  match closeErr with
  | some err => some err
  | none =>
    if crc32 s.consumed ≠ crc then
      some (.crcMismatch (crc32 s.consumed) crc)
    else none

/-! ### Remaining specification-side definitions -/

/-- A well-formed path-component byte string: non-empty (normalization
substitutes the `" "` sentinel for empty components) and free of NUL
bytes, each byte an actual byte. -/
def goodStr (s : List Nat) : Prop :=
  s ≠ [] ∧ ∀ b ∈ s, 0 < b ∧ b < 256

/-- An entry as the tree-building part of `Create` receives it: a
normalized path key, no preload data (`Create` never sets
`PreloadBytes`), an `ArchiveIndex` in the valid `int16` range `0..0x7fff`
and the remaining record fields inside their fixed-width ranges. -/
def goodEntry (p : entrypath) : Prop :=
  goodStr p.dir ∧ goodStr p.base ∧ goodStr p.ext ∧
  p.pre = [] ∧ p.vpk.PreloadBytes = 0 ∧
  0 ≤ p.vpk.ArchiveIndex ∧ p.vpk.ArchiveIndex ≤ 0x7fff ∧
  p.vpk.CRC < 2 ^ 32 ∧ p.vpk.Offset < 2 ^ 32 ∧ p.vpk.Length < 2 ^ 32 ∧
  p.vpk.Terminator = 0xffff

instance (p : entrypath) : Decidable (goodEntry p) := by
  unfold goodEntry goodStr; infer_instance

/-- The archive-index assignment exactly as the specification words it
for bounded mode: entries packed starting at index 0 with a per-archive
running offset; after adding a file's length, an offset that reaches or
exceeds the ceiling makes the next file start a new archive (index + 1,
offset 0). -/
def specAssignIdx (ceiling : Int) (idx : Int) (off : Nat) :
    List Nat → List Int
  | [] => []
  | n :: rest =>
    idx ::
      (if ceiling ≤ ((off + n : Nat) : Int) then specAssignIdx ceiling (idx + 1) 0 rest
       else specAssignIdx ceiling idx (off + n) rest)

/-! ### Order lemmas for `entrysort.less` -/

theorem ltBytes_asymm : ∀ {a b : List Nat}, ltBytes a b = true → ltBytes b a = false := by
  intro a
  induction a with
  | nil => intro b h; cases b <;> simp_all [ltBytes]
  | cons x xs ih =>
    intro b h
    cases b with
    | nil => simp [ltBytes] at h
    | cons y ys =>
      simp only [ltBytes] at h ⊢
      rcases Nat.lt_trichotomy x y with hxy | hxy | hxy
      · simp [Nat.not_lt.mpr (Nat.le_of_lt hxy), hxy]
      · subst hxy
        simp only [Nat.lt_irrefl, if_false] at h ⊢
        exact ih h
      · simp [hxy, Nat.not_lt.mpr (Nat.le_of_lt hxy)] at h

theorem ltBytes_eq_of_not : ∀ {a b : List Nat},
    ltBytes a b = false → ltBytes b a = false → a = b := by
  intro a
  induction a with
  | nil => intro b h1 h2; cases b <;> simp_all [ltBytes]
  | cons x xs ih =>
    intro b h1 h2
    cases b with
    | nil => simp [ltBytes] at h2
    | cons y ys =>
      simp only [ltBytes] at h1 h2
      rcases Nat.lt_trichotomy x y with hxy | hxy | hxy
      · simp [hxy] at h1
      · subst hxy
        simp only [Nat.lt_irrefl, if_false] at h1 h2
        rw [ih h1 h2]
      · simp [hxy] at h2

theorem ltBytes_trans : ∀ {a b c : List Nat},
    ltBytes a b = true → ltBytes b c = true → ltBytes a c = true := by
  intro a
  induction a with
  | nil =>
    intro b c h1 h2
    cases b with
    | nil => simp [ltBytes] at h1
    | cons y ys => cases c <;> simp_all [ltBytes]
  | cons x xs ih =>
    intro b c h1 h2
    cases b with
    | nil => simp [ltBytes] at h1
    | cons y ys =>
      cases c with
      | nil => simp [ltBytes] at h2
      | cons z zs =>
        simp only [ltBytes] at h1 h2 ⊢
        rcases Nat.lt_trichotomy x y with hxy | hxy | hxy
        · rcases Nat.lt_trichotomy y z with hyz | hyz | hyz
          · simp [Nat.lt_trans hxy hyz]
          · subst hyz; simp [hxy]
          · simp [hyz, Nat.not_lt.mpr (Nat.le_of_lt hyz)] at h2
        · subst hxy
          rcases Nat.lt_trichotomy x z with hyz | hyz | hyz
          · simp [hyz]
          · subst hyz
            simp only [Nat.lt_irrefl, if_false] at h1 h2 ⊢
            exact ih h1 h2
          · simp [hyz, Nat.not_lt.mpr (Nat.le_of_lt hyz)] at h2
        · simp [hxy, Nat.not_lt.mpr (Nat.le_of_lt hxy)] at h1

theorem entryLess_asymm {x y : entrypath} (h : entryLess x y = true) :
    entryLess y x = false := by
  unfold entryLess at h ⊢
  split_ifs at h ⊢ <;> simp_all <;>
    first
      | (exfalso; simp_all [ltBytes_asymm])
      | exact ltBytes_asymm h

theorem ltBytes_irrefl (a : List Nat) : ltBytes a a = false := by
  cases h : ltBytes a a with
  | false => rfl
  | true => have h2 := ltBytes_asymm h; simp [h] at h2

theorem entryLess_iff {x y : entrypath} : entryLess x y = true ↔
    (ltBytes x.ext y.ext = true ∨
      (x.ext = y.ext ∧ (ltBytes x.dir y.dir = true ∨
        (x.dir = y.dir ∧ ltBytes x.base y.base = true)))) := by
  constructor
  · intro h
    unfold entryLess at h
    split_ifs at h with h1 h2 h3 h4 <;>
      simp only [Bool.not_eq_true] at *
    · exact Or.inl h1
    · exact Or.inr ⟨ltBytes_eq_of_not h1 h2, Or.inl h3⟩
    · exact Or.inr ⟨ltBytes_eq_of_not h1 h2,
        Or.inr ⟨ltBytes_eq_of_not h3 h4, h⟩⟩
  · intro h
    unfold entryLess
    rcases h with h | ⟨he, h⟩
    · simp [h]
    · rw [he]
      simp only [ltBytes_irrefl, if_false]
      rcases h with h | ⟨hd, h⟩
      · simp [h]
      · rw [hd]
        simp [ltBytes_irrefl, h]

theorem entryLess_trans {x y z : entrypath} (h1 : entryLess x y = true)
    (h2 : entryLess y z = true) : entryLess x z = true := by
  rw [entryLess_iff] at h1 h2 ⊢
  rcases h1 with h1 | ⟨he1, h1⟩
  · rcases h2 with h2 | ⟨he2, h2⟩
    · exact Or.inl (ltBytes_trans h1 h2)
    · rw [← he2]
      exact Or.inl h1
  · rcases h2 with h2 | ⟨he2, h2⟩
    · rw [he1]
      exact Or.inl h2
    · refine Or.inr ⟨he1.trans he2, ?_⟩
      rcases h1 with hd1 | ⟨hdd1, hb1⟩
      · rcases h2 with hd2 | ⟨hdd2, hb2⟩
        · exact Or.inl (ltBytes_trans hd1 hd2)
        · rw [← hdd2]
          exact Or.inl hd1
      · rcases h2 with hd2 | ⟨hdd2, hb2⟩
        · rw [hdd1]
          exact Or.inl hd2
        · exact Or.inr ⟨hdd1.trans hdd2, ltBytes_trans hb1 hb2⟩

theorem entryLess_keys_eq {x y : entrypath} (h1 : entryLess x y = false)
    (h2 : entryLess y x = false) :
    x.ext = y.ext ∧ x.dir = y.dir ∧ x.base = y.base := by
  unfold entryLess at h1 h2
  split_ifs at h1 h2 with g1 g2 g3 g4 <;>
    simp only [Bool.not_eq_true] at *
  · exact ⟨ltBytes_eq_of_not g1 g2, ltBytes_eq_of_not g3 g4,
      ltBytes_eq_of_not h1 h2⟩

theorem entryLess_congr_left {x y c : entrypath} (he : x.ext = y.ext)
    (hd : x.dir = y.dir) (hb : x.base = y.base) :
    entryLess x c = entryLess y c := by
  unfold entryLess
  rw [he, hd, hb]

theorem entryLE_total (x y : entrypath) : entryLE x y ∨ entryLE y x := by
  unfold entryLE
  cases h : entryLess y x with
  | false => exact Or.inl rfl
  | true => exact Or.inr (entryLess_asymm h)

theorem entryLE_trans {x y z : entrypath} (h1 : entryLE x y) (h2 : entryLE y z) :
    entryLE x z := by
  unfold entryLE at h1 h2 ⊢
  cases hzx : entryLess z x with
  | false => rfl
  | true =>
    exfalso
    cases hyz : entryLess y z with
    | true =>
      have := entryLess_trans hyz hzx
      simp [this] at h1
    | false =>
      obtain ⟨he, hd, hb⟩ := entryLess_keys_eq h2 hyz
      rw [entryLess_congr_left he.symm hd.symm hb.symm, hzx] at h1
      simp at h1

theorem mem_orderedInsertE {a e : entrypath} {l : List entrypath}
    (h : a ∈ orderedInsertE e l) : a = e ∨ a ∈ l := by
  induction l with
  | nil => simpa [orderedInsertE] using h
  | cons x xs ih =>
    by_cases hc : entryLess e x = true
    · rw [orderedInsertE, if_pos hc] at h
      rcases List.mem_cons.mp h with h2 | h2
      · exact Or.inl h2
      · exact Or.inr h2
    · rw [orderedInsertE, if_neg hc] at h
      rcases List.mem_cons.mp h with h2 | h2
      · exact Or.inr (by simp [h2])
      · rcases ih h2 with h3 | h3
        · exact Or.inl h3
        · exact Or.inr (by simp [h3])

theorem orderedInsertE_pairwise {e : entrypath} {l : List entrypath}
    (h : l.Pairwise entryLE) : (orderedInsertE e l).Pairwise entryLE := by
  induction l with
  | nil => simp [orderedInsertE, List.Pairwise.nil]
  | cons x xs ih =>
    rw [List.pairwise_cons] at h
    by_cases hc : entryLess e x = true
    · rw [orderedInsertE, if_pos hc]
      refine List.Pairwise.cons ?_ (List.Pairwise.cons h.1 h.2)
      intro y hy
      rcases List.mem_cons.mp hy with hy2 | hy2
      · subst hy2
        exact entryLess_asymm hc
      · exact entryLE_trans (entryLess_asymm hc) (h.1 y hy2)
    · rw [orderedInsertE, if_neg hc]
      simp only [Bool.not_eq_true] at hc
      refine List.Pairwise.cons ?_ (ih h.2)
      intro y hy
      rcases mem_orderedInsertE hy with hy2 | hy2
      · subst hy2
        exact hc
      · exact h.1 y hy2

theorem sortEntries_pairwise (l : List entrypath) :
    (sortEntries l).Pairwise entryLE := by
  induction l with
  | nil => simp [sortEntries]
  | cons x xs ih => exact orderedInsertE_pairwise ih

/-! ### Codec round-trip -/

theorem readString_writeString {s : List Nat} (hs : ∀ b ∈ s, 0 < b)
    (t : List Nat) : readString (writeString s ++ t) = some (s, t) := by
  induction s with
  | nil => simp [writeString, readString]
  | cons b bs ih =>
    have hb : ¬ b = 0 := by
      have := hs b (by simp)
      omega
    have ih2 := ih (fun x hx => hs x (by simp [hx]))
    simp only [writeString, List.cons_append, readString, if_neg hb,
      List.append_eq] at ih2 ⊢
    rw [ih2]

theorem readN_zero (l : List Nat) : readN 0 l = some ([], l) := by
  simp [readN]

theorem readRecord_encodeRecord {v : vpkentry} (hcrc : v.CRC < 2 ^ 32)
    (hai0 : 0 ≤ v.ArchiveIndex) (hai1 : v.ArchiveIndex ≤ 0x7fff)
    (hpb : v.PreloadBytes < 2 ^ 16) (hoff : v.Offset < 2 ^ 32)
    (hlen : v.Length < 2 ^ 32) (hterm : v.Terminator < 2 ^ 16)
    (t : List Nat) : readRecord (encodeRecord v ++ t) = some (v, t) := by
  obtain ⟨crc, pb, ai, off, len, term⟩ := v
  simp only at hcrc hai0 hai1 hpb hoff hlen hterm
  have hai2 : ai % 65536 = ai := Int.emod_eq_of_lt hai0 (by omega)
  have htn : (ai.toNat : Int) = ai := Int.toNat_of_nonneg hai0
  have hton : ai.toNat ≤ 32767 := by omega
  have h1 : ai.toNat % 256 + 256 * (ai.toNat / 256 % 256) = ai.toNat := by omega
  simp only [encodeRecord, le32, le16, hai2, List.cons_append, List.nil_append,
    readRecord, Option.some.injEq, Prod.mk.injEq, vpkentry.mk.injEq, and_true]
  refine ⟨?_, ?_, ?_, ?_, ?_, ?_⟩
  · omega
  · omega
  · rw [h1, if_pos (by omega)]
    exact htn
  · omega
  · omega
  · omega

theorem parseBases_term (E D t : List Nat) :
    parseBases E D (0 :: t) = .ok ([], t) := by
  rw [parseBases.eq_def]
  simp [readString]

theorem parseDirs_term (E : List Nat) (t : List Nat) :
    parseDirs E (0 :: t) = .ok ([], t) := by
  rw [parseDirs.eq_def]
  simp [readString]

theorem parseTree_term (t : List Nat) : parseTree (0 :: t) = .ok [] := by
  rw [parseTree.eq_def]
  simp [readString]

theorem parseBases_step (E D base : List Nat) (hb : base ≠ [])
    (hbs : ∀ b ∈ base, 0 < b) (v : vpkentry)
    (hai0 : 0 ≤ v.ArchiveIndex) (hai1 : v.ArchiveIndex ≤ 0x7fff)
    (hcrc : v.CRC < 2 ^ 32) (hpb : v.PreloadBytes = 0)
    (hoff : v.Offset < 2 ^ 32) (hlen : v.Length < 2 ^ 32)
    (hterm : v.Terminator = 0xffff) (t : List Nat) :
    parseBases E D (writeString base ++ (encodeRecord v ++ t)) =
      match parseBases E D t with
      | .error err => .error err
      | .ok (es, r) => .ok (⟨D, base, E, v, []⟩ :: es, r) := by
  rw [parseBases.eq_def]
  split
  · rename_i heq
    rw [readString_writeString hbs] at heq
    simp at heq
  · rename_i base1 rest heq
    rw [readString_writeString hbs] at heq
    simp only [Option.some.injEq, Prod.mk.injEq] at heq
    obtain ⟨hb1, hr1⟩ := heq
    subst hb1
    subst hr1
    rw [if_neg hb]
    split
    · rename_i heq2
      rw [readRecord_encodeRecord hcrc hai0 hai1 (by omega) hoff hlen
        (by omega)] at heq2
      simp at heq2
    · rename_i e2 rest2 heq2
      rw [readRecord_encodeRecord hcrc hai0 hai1 (by omega) hoff hlen
        (by omega)] at heq2
      simp only [Option.some.injEq, Prod.mk.injEq] at heq2
      obtain ⟨hv2, ht2⟩ := heq2
      subst hv2
      subst ht2
      rw [if_neg (by push_neg; exact ⟨by omega, by omega⟩)]
      split
      · rename_i heq3
        rw [hpb, readN_zero] at heq3
        simp at heq3
      · rename_i pre3 rest3 heq3
        rw [hpb, readN_zero] at heq3
        simp only [Option.some.injEq, Prod.mk.injEq] at heq3
        obtain ⟨hp3, ht3⟩ := heq3
        subst hp3
        subst ht3
        rfl

theorem parseDirs_step (E dir : List Nat) (hd : dir ≠ [])
    (hds : ∀ b ∈ dir, 0 < b) (t : List Nat) :
    parseDirs E (writeString dir ++ t) =
      match parseBases E dir t with
      | .error err => .error err
      | .ok (es, r) =>
        match parseDirs E r with
        | .error err => .error err
        | .ok (es2, r2) => .ok (es ++ es2, r2) := by
  rw [parseDirs.eq_def]
  split
  · rename_i heq
    rw [readString_writeString hds] at heq
    simp at heq
  · rename_i dir1 rest heq
    rw [readString_writeString hds] at heq
    simp only [Option.some.injEq, Prod.mk.injEq] at heq
    obtain ⟨hd1, hr1⟩ := heq
    subst hd1
    subst hr1
    rw [if_neg hd]
    split
    · rename_i err heq2
      rw [heq2]
    · rename_i es r heq2
      rw [heq2]

theorem parseTree_step (ext : List Nat) (he : ext ≠ [])
    (hes : ∀ b ∈ ext, 0 < b) (t : List Nat) :
    parseTree (writeString ext ++ t) =
      match parseDirs ext t with
      | .error err => .error err
      | .ok (es, r) =>
        match parseTree r with
        | .error err => .error err
        | .ok es2 => .ok (es ++ es2) := by
  rw [parseTree.eq_def]
  split
  · rename_i heq
    rw [readString_writeString hes] at heq
    simp at heq
  · rename_i ext1 rest heq
    rw [readString_writeString hes] at heq
    simp only [Option.some.injEq, Prod.mk.injEq] at heq
    obtain ⟨he1, hr1⟩ := heq
    subst he1
    subst hr1
    rw [if_neg he]
    split
    · rename_i err heq2
      rw [heq2]
    · rename_i es r heq2
      rw [heq2]

theorem parse_encodeTail : ∀ (rest : List entrypath) (e : entrypath),
    (∀ x ∈ e :: rest, goodEntry x) →
    ∃ (gt : List entrypath) (r1 : List Nat) (dt : List entrypath)
      (r2 : List Nat) (et : List entrypath),
      parseBases e.ext e.dir (encodeTail e rest) = .ok (gt, r1) ∧
      parseDirs e.ext r1 = .ok (dt, r2) ∧
      parseTree r2 = .ok et ∧
      gt ++ dt ++ et = rest := by
  intro rest
  induction rest with
  | nil =>
    intro e hg
    obtain ⟨hgd, hgb, hge, -, -, -, -, -, -, -, -⟩ := hg e (by simp)
    refine ⟨[], [0, 0], [], [0], [], ?_, ?_, ?_, rfl⟩
    · rw [encodeTail, if_neg (by simp [hgd.1]), if_neg hge.1]
      have : (writeString [] ++ writeString [] ++ writeString [] : List Nat) =
          0 :: [0, 0] := by simp [writeString]
      rw [this]
      exact parseBases_term _ _ _
    · exact parseDirs_term _ _
    · exact parseTree_term _
  | cons n rest ih =>
    intro e hg
    have hgn := hg n (by simp)
    obtain ⟨hnd, hnb, hne, hnpre, hnpb, hai0, hai1, hcrc, hoff, hlen, hterm⟩ := hgn
    obtain ⟨gt, r1, dt, r2, et, hb1, hd1, ht1, hcat⟩ :=
      ih n (fun x hx => hg x (by simp at hx ⊢; exact Or.inr hx))
    have hncons : (⟨n.dir, n.base, n.ext, n.vpk, []⟩ : entrypath) = n := by
      obtain ⟨d, b, x, v, p⟩ := n
      simp at hnpre
      simp [hnpre]
    by_cases hc1 : e.dir = n.dir ∧ e.ext = n.ext
    · refine ⟨n :: gt, r1, dt, r2, et, ?_, ?_, ?_, ?_⟩
      · rw [encodeTail, if_pos hc1, List.append_assoc, hc1.1, hc1.2,
          parseBases_step n.ext n.dir n.base hnb.1
            (fun b hb => (hnb.2 b hb).1) n.vpk hai0 hai1 hcrc hnpb hoff hlen
            hterm (encodeTail n rest), hb1, hncons]
      · rw [hc1.2]
        exact hd1
      · exact ht1
      · simp [hcat]
    · by_cases hc2 : e.ext = n.ext
      · refine ⟨[], writeString n.dir ++ (writeString n.base ++
          (encodeRecord n.vpk ++ encodeTail n rest)), n :: gt ++ dt, r2, et,
          ?_, ?_, ?_, ?_⟩
        · rw [encodeTail, if_neg hc1, if_pos hc2]
          have : (writeString [] ++ writeString n.dir ++ writeString n.base ++
              encodeRecord n.vpk ++ encodeTail n rest : List Nat) =
              0 :: (writeString n.dir ++ (writeString n.base ++
                (encodeRecord n.vpk ++ encodeTail n rest))) := by
            simp [writeString]
          rw [this]
          exact parseBases_term _ _ _
        · rw [hc2, parseDirs_step n.ext n.dir hnd.1 (fun b hb => (hnd.2 b hb).1),
            parseBases_step n.ext n.dir n.base hnb.1
              (fun b hb => (hnb.2 b hb).1) n.vpk hai0 hai1 hcrc hnpb hoff hlen
              hterm (encodeTail n rest), hb1]
          simp only [hncons, hd1, List.cons_append]
        · exact ht1
        · simp [hcat]
      · refine ⟨[], 0 :: (writeString n.ext ++ (writeString n.dir ++
          (writeString n.base ++ (encodeRecord n.vpk ++ encodeTail n rest)))),
          [], writeString n.ext ++ (writeString n.dir ++
          (writeString n.base ++ (encodeRecord n.vpk ++ encodeTail n rest))),
          n :: gt ++ dt ++ et, ?_, ?_, ?_, ?_⟩
        · rw [encodeTail, if_neg hc1, if_neg hc2, if_neg hne.1]
          have : (writeString [] ++ writeString [] ++ writeString n.ext ++
              (writeString n.dir ++ writeString n.base ++
                encodeRecord n.vpk ++ encodeTail n rest) : List Nat) =
              0 :: (0 :: (writeString n.ext ++ (writeString n.dir ++
                (writeString n.base ++
                  (encodeRecord n.vpk ++ encodeTail n rest))))) := by
            simp [writeString]
          rw [this]
          exact parseBases_term _ _ _
        · exact parseDirs_term _ _
        · rw [parseTree_step n.ext hne.1 (fun b hb => (hne.2 b hb).1),
            parseDirs_step n.ext n.dir hnd.1 (fun b hb => (hnd.2 b hb).1),
            parseBases_step n.ext n.dir n.base hnb.1
              (fun b hb => (hnb.2 b hb).1) n.vpk hai0 hai1 hcrc hnpb hoff hlen
              hterm (encodeTail n rest), hb1]
          simp only [hncons, hd1, ht1, List.cons_append, List.append_assoc]
        · simp [hcat]

theorem parseTree_encodeTree (es : List entrypath)
    (hg : ∀ x ∈ es, goodEntry x) : parseTree (encodeTree es) = .ok es := by
  cases es with
  | nil =>
    rw [encodeTree]
    have : (writeString [] ++ writeString [] ++ writeString [] : List Nat) =
        0 :: [0, 0] := by simp [writeString]
    rw [this, parseTree_term]
  | cons e rest =>
    obtain ⟨hed, heb, hee, hepre, hepb, hai0, hai1, hcrc, hoff, hlen, hterm⟩ :=
      hg e (by simp)
    obtain ⟨gt, r1, dt, r2, et, hb1, hd1, ht1, hcat⟩ := parse_encodeTail rest e hg
    have hecons : (⟨e.dir, e.base, e.ext, e.vpk, []⟩ : entrypath) = e := by
      obtain ⟨d, b, x, v, p⟩ := e
      simp at hepre
      simp [hepre]
    rw [encodeTree]
    have hshape : (writeString e.ext ++ writeString e.dir ++ writeString e.base ++
        encodeRecord e.vpk ++ encodeTail e rest : List Nat) =
        writeString e.ext ++ (writeString e.dir ++ (writeString e.base ++
          (encodeRecord e.vpk ++ encodeTail e rest))) := by
      simp [List.append_assoc]
    rw [hshape, parseTree_step e.ext hee.1 (fun b hb => (hee.2 b hb).1),
      parseDirs_step e.ext e.dir hed.1 (fun b hb => (hed.2 b hb).1),
      parseBases_step e.ext e.dir e.base heb.1 (fun b hb => (heb.2 b hb).1)
        e.vpk hai0 hai1 hcrc hepb hoff hlen hterm (encodeTail e rest), hb1]
    simp only [hecons, hd1, ht1, List.cons_append, List.append_assoc, hcat]

theorem readN_exact (n : Nat) (s : List Nat) (h : s.length = n) (t : List Nat) :
    readN n (s ++ t) = some (s, t) := by
  rw [readN, if_pos (by simp [List.length_append, h])]
  rw [← h, List.take_left, List.drop_left]

theorem decLe_le32 (n : Nat) (h : n < 2 ^ 32) : decLe (le32 n) = n := by
  simp only [le32, decLe]
  omega

theorem openVPK_header (tl : Nat) (htl : tl < 2 ^ 32) (tree : List Nat) :
    openVPK (le32 0x55aa1234 ++ le32 1 ++ le32 tl ++ tree) =
      match parseTree tree with
      | .error err => .error err
      | .ok es => .ok ⟨1, tl, sortEntries es⟩ := by
  rw [show (le32 0x55aa1234 ++ le32 1 ++ le32 tl ++ tree : List Nat) =
    le32 0x55aa1234 ++ (le32 1 ++ (le32 tl ++ tree)) from by
      simp [List.append_assoc]]
  unfold openVPK
  rw [readN_exact 4 (le32 0x55aa1234) rfl]
  simp only [decLe_le32 0x55aa1234 (by norm_num), decLe_le32 tl htl]
  rw [if_neg (by omega)]
  rw [readN_exact 4 (le32 1) rfl]
  simp only [decLe_le32 1 (by norm_num)]
  rw [if_neg (by omega)]
  rw [readN_exact 4 (le32 tl) rfl]
  simp only [decLe_le32 tl htl]

/-! ### Claim theorems -/

/-- C1: Tree codec round-trip — for every non-empty list of entries with
distinct normalized path keys, sorted by `(extension, directory, base)`,
decoding the byte buffer produced by the tree encoder (the tree-building
part of `Create`) with the tree parser (the loop in `Open`) yields
exactly the same ordered list of `(PathKey, DirectoryEntry, preload
bytes)` tuples. -/
theorem C1_tree_codec_roundtrip (es : List entrypath) (hne : es ≠ [])
    (hgood : ∀ e ∈ es, goodEntry e)
    (hsorted : strictlySortedB es = true) :
    parseTree (encodeTree es) = .ok es :=
  parseTree_encodeTree es hgood

theorem C1_tree_codec_roundtrip_witness :
    ([⟨[32], [111], [100], ⟨1, 0, 32767, 0, 5, 65535⟩, []⟩,
      ⟨[98], [116], [100], ⟨2, 0, 0, 5, 6, 65535⟩, []⟩] : List entrypath) ≠ [] ∧
    (∀ e ∈ ([⟨[32], [111], [100], ⟨1, 0, 32767, 0, 5, 65535⟩, []⟩,
      ⟨[98], [116], [100], ⟨2, 0, 0, 5, 6, 65535⟩, []⟩] : List entrypath),
      goodEntry e) ∧
    strictlySortedB [⟨[32], [111], [100], ⟨1, 0, 32767, 0, 5, 65535⟩, []⟩,
      ⟨[98], [116], [100], ⟨2, 0, 0, 5, 6, 65535⟩, []⟩] = true ∧
    parseTree (encodeTree [⟨[32], [111], [100], ⟨1, 0, 32767, 0, 5, 65535⟩, []⟩,
      ⟨[98], [116], [100], ⟨2, 0, 0, 5, 6, 65535⟩, []⟩]) =
      .ok [⟨[32], [111], [100], ⟨1, 0, 32767, 0, 5, 65535⟩, []⟩,
        ⟨[98], [116], [100], ⟨2, 0, 0, 5, 6, 65535⟩, []⟩] :=
  ⟨by decide, by decide, by decide,
    C1_tree_codec_roundtrip _ (by decide) (by decide) (by decide)⟩

/-- C4 (amended): the entry list of any container accepted by `Open` is
sorted by the `(extension, directory, base)` comparison — each adjacent
pair is in non-decreasing order — but not necessarily strictly: the
parser accepts streams that repeat a key, so duplicate keys can occur
(see the counterexample). -/
theorem C4_entries_sorted (input : List Nat) (v : VPKData)
    (h : openVPK input = .ok v) : v.entries.Pairwise entryLE := by
  unfold openVPK at h
  split at h
  · simp at h
  rename_i m r1 hm
  split at h
  · simp at h
  split at h
  · simp at h
  rename_i vb r2 hv
  split at h
  · simp at h
  split at h
  · simp at h
  rename_i tb r3 ht
  split at h
  · simp at h
  rename_i es hes
  simp only [Except.ok.injEq] at h
  subst h
  exact sortEntries_pairwise es

/-- C4 counterexample: a byte stream that `Open` accepts whose entry
list holds the same `(ext, dir, base)` key twice, so the entry list is
not strictly ordered and keys are not pairwise distinct. -/
theorem C4_strict_sort_counterexample :
    openVPK (le32 0x55aa1234 ++ le32 1 ++ le32 47 ++
        encodeTree [⟨[100], [98], [101], ⟨0, 0, 32767, 0, 0, 65535⟩, []⟩,
          ⟨[100], [98], [101], ⟨0, 0, 32767, 0, 0, 65535⟩, []⟩]) =
      .ok ⟨1, 47, [⟨[100], [98], [101], ⟨0, 0, 32767, 0, 0, 65535⟩, []⟩,
        ⟨[100], [98], [101], ⟨0, 0, 32767, 0, 0, 65535⟩, []⟩]⟩ ∧
    strictlySortedB [⟨[100], [98], [101], ⟨0, 0, 32767, 0, 0, 65535⟩, []⟩,
      ⟨[100], [98], [101], ⟨0, 0, 32767, 0, 0, 65535⟩, []⟩] = false := by
  constructor
  · rw [openVPK_header 47 (by norm_num),
      parseTree_encodeTree _ (by decide)]
    decide
  · decide

theorem C4_entries_sorted_witness :
    openVPK (le32 0x55aa1234 ++ le32 1 ++ le32 47 ++
        encodeTree [⟨[100], [98], [101], ⟨0, 0, 32767, 0, 0, 65535⟩, []⟩,
          ⟨[100], [98], [101], ⟨0, 0, 32767, 0, 0, 65535⟩, []⟩]) =
      .ok ⟨1, 47, [⟨[100], [98], [101], ⟨0, 0, 32767, 0, 0, 65535⟩, []⟩,
        ⟨[100], [98], [101], ⟨0, 0, 32767, 0, 0, 65535⟩, []⟩]⟩ ∧
    ([⟨[100], [98], [101], ⟨0, 0, 32767, 0, 0, 65535⟩, []⟩,
      ⟨[100], [98], [101], ⟨0, 0, 32767, 0, 0, 65535⟩, []⟩] :
        List entrypath).Pairwise entryLE := by
  have h : openVPK (le32 0x55aa1234 ++ le32 1 ++ le32 47 ++
      encodeTree [⟨[100], [98], [101], ⟨0, 0, 32767, 0, 0, 65535⟩, []⟩,
        ⟨[100], [98], [101], ⟨0, 0, 32767, 0, 0, 65535⟩, []⟩]) =
      .ok ⟨1, 47, [⟨[100], [98], [101], ⟨0, 0, 32767, 0, 0, 65535⟩, []⟩,
        ⟨[100], [98], [101], ⟨0, 0, 32767, 0, 0, 65535⟩, []⟩]⟩ := by
    rw [openVPK_header 47 (by norm_num),
      parseTree_encodeTree _ (by decide)]
    decide
  exact ⟨h, C4_entries_sorted _ _ h⟩

/-- C9: Header guard — with at least 4 bytes present, a first little-
endian word different from `0x55AA1234` fails `InvalidMagic`; with
correct magic and at least 8 bytes, a second word different from `1`
fails `UnsupportedVersion` carrying that word.  In both cases `Open`
returns an error and no container. -/
theorem C9_header_guard (input : List Nat) :
    (4 ≤ input.length → decLe (input.take 4) ≠ 0x55aa1234 →
      openVPK input = .error .invalidMagic) ∧
    (8 ≤ input.length → decLe (input.take 4) = 0x55aa1234 →
      decLe ((input.drop 4).take 4) ≠ 1 →
      openVPK input = .error (.unsupportedVersion (decLe ((input.drop 4).take 4)))) := by
  constructor
  · intro h4 hm
    unfold openVPK
    split
    · rename_i heq
      rw [readN, if_pos h4] at heq
      simp at heq
    · rename_i m r1 heq
      rw [readN, if_pos h4] at heq
      simp only [Option.some.injEq, Prod.mk.injEq] at heq
      obtain ⟨h1, h2⟩ := heq
      subst h1
      subst h2
      rw [if_pos hm]
  · intro h8 hm hv
    unfold openVPK
    split
    · rename_i heq
      rw [readN, if_pos (by omega)] at heq
      simp at heq
    · rename_i m r1 heq
      rw [readN, if_pos (by omega)] at heq
      simp only [Option.some.injEq, Prod.mk.injEq] at heq
      obtain ⟨h1, h2⟩ := heq
      subst h1
      subst h2
      rw [if_neg (by simp [hm])]
      split
      · rename_i heq2
        rw [readN, if_pos (by simp [List.length_drop]; omega)] at heq2
        simp at heq2
      · rename_i vb r2 heq2
        rw [readN, if_pos (by simp [List.length_drop]; omega)] at heq2
        simp only [Option.some.injEq, Prod.mk.injEq] at heq2
        obtain ⟨h1, h2⟩ := heq2
        subst h1
        subst h2
        rw [if_pos hv]

theorem C9_header_guard_witness :
    openVPK [0, 0, 0, 0] = .error .invalidMagic ∧
    openVPK (le32 0x55aa1234 ++ le32 2) = .error (.unsupportedVersion 2) := by
  constructor
  · exact (C9_header_guard [0, 0, 0, 0]).1 (by decide) (by decide)
  · have h := (C9_header_guard (le32 0x55aa1234 ++ le32 2)).2
      (by decide) (by decide) (by decide)
    have h2 : decLe (((le32 0x55aa1234 ++ le32 2).drop 4).take 4) = 2 := by decide
    rw [h2] at h
    exact h

/-- C5: Entry resolution — the stream of `vpkFileEntry.Open` equals the
specification's description (`entryStreamSpec`): preload buffer alone
with no file handle when `length == 0`; otherwise preload followed by
`length` payload bytes read from main-file position
`12 + treeLength + offset` for the sentinel index `0x7fff`, or from
position `offset` of numbered archive `archiveIndex` otherwise; when the
positioned file holds enough bytes the payload part is exactly `length`
bytes long. -/
theorem C5_entry_resolution (o : OpenerData) (tl : Nat) (e : vpkentry)
    (pre : List Nat) :
    vpkFileEntryOpen o tl e pre = entryStreamSpec o tl e pre ∧
    (e.Length = 0 → vpkFileEntryOpen o tl e pre = (pre, false)) ∧
    (e.Length ≠ 0 → e.ArchiveIndex = 0x7fff →
      12 + tl + e.Offset + e.Length ≤ o.main.length →
      vpkFileEntryOpen o tl e pre =
        (pre ++ (o.main.drop (12 + tl + e.Offset)).take e.Length, true) ∧
      (vpkFileEntryOpen o tl e pre).1.length = pre.length + e.Length) ∧
    (e.Length ≠ 0 → e.ArchiveIndex ≠ 0x7fff →
      e.Offset + e.Length ≤ (o.archive e.ArchiveIndex).length →
      vpkFileEntryOpen o tl e pre =
        (pre ++ ((o.archive e.ArchiveIndex).drop e.Offset).take e.Length,
          true) ∧
      (vpkFileEntryOpen o tl e pre).1.length = pre.length + e.Length) := by
  refine ⟨?_, ?_, ?_, ?_⟩
  · unfold vpkFileEntryOpen entryStreamSpec seekCur readLimit
    split_ifs <;> simp [Nat.add_assoc]
  · intro h0
    unfold vpkFileEntryOpen
    rw [if_pos h0]
  · intro hne hsen hlen
    unfold vpkFileEntryOpen seekCur readLimit
    rw [if_neg hne, if_pos hsen]
    simp only
    constructor
    · simp [Nat.add_assoc]
    · simp [List.length_append, List.length_take, List.length_drop]
      omega
  · intro hne hsen hlen
    unfold vpkFileEntryOpen seekCur readLimit
    rw [if_neg hne, if_neg hsen]
    simp only
    constructor
    · simp
    · simp [List.length_append, List.length_take, List.length_drop]
      omega

theorem C5_entry_resolution_witness :
    ((⟨9, 1, 32767, 2, 3, 65535⟩ : vpkentry).Length ≠ 0 ∧
      (⟨9, 1, 32767, 2, 3, 65535⟩ : vpkentry).ArchiveIndex = 32767 ∧
      12 + 4 + 2 + 3 ≤ (List.range 30).length) ∧
    vpkFileEntryOpen ⟨List.range 30, fun _ => [5, 6, 7, 8]⟩ 4
        ⟨9, 1, 32767, 2, 3, 65535⟩ [1] =
      ([1] ++ ((List.range 30).drop (12 + 4 + 2)).take 3, true) ∧
    vpkFileEntryOpen ⟨List.range 30, fun _ => [5, 6, 7, 8]⟩ 4
        ⟨9, 1, 1, 1, 2, 65535⟩ [1] =
      ([1] ++ ([5, 6, 7, 8].drop 1).take 2, true) ∧
    vpkFileEntryOpen ⟨List.range 30, fun _ => [5, 6, 7, 8]⟩ 4
        ⟨9, 1, 1, 1, 0, 65535⟩ [2] = ([2], false) := by
  refine ⟨by decide, ?_, ?_, ?_⟩
  · exact ((C5_entry_resolution ⟨List.range 30, fun _ => [5, 6, 7, 8]⟩ 4
      ⟨9, 1, 32767, 2, 3, 65535⟩ [1]).2.2.1 (by decide) (by decide)
      (by decide)).1
  · exact ((C5_entry_resolution ⟨List.range 30, fun _ => [5, 6, 7, 8]⟩ 4
      ⟨9, 1, 1, 1, 2, 65535⟩ [1]).2.2.2 (by decide) (by decide)
      (by decide)).1
  · exact (C5_entry_resolution ⟨List.range 30, fun _ => [5, 6, 7, 8]⟩ 4
      ⟨9, 1, 1, 1, 0, 65535⟩ [2]).2.1 (by decide)

/-- C7: Deferred CRC verification — reading through a `crcReader`
delivers the underlying bytes unchanged (no CRC error can arise from a
read); closing with a successful underlying close returns nil exactly
when the IEEE CRC-32 of all delivered bytes equals the recorded
checksum, and returns `ErrCRCMismatch{actual, expected}` with the
computed and the recorded value when they differ. -/
theorem C7_crc_close (s : CrcReaderState) (chunk : List Nat) (crc : Nat) :
    (crcRead s chunk).2 = chunk ∧
    (crcClose s none crc = none ↔ crc32 s.consumed = crc) ∧
    (crc32 s.consumed ≠ crc →
      crcClose s none crc = some (.crcMismatch (crc32 s.consumed) crc)) := by
  refine ⟨rfl, ?_, ?_⟩
  · unfold crcClose
    split_ifs with h
    · simp [h]
    · simp at h
      simp [h]
  · intro h
    unfold crcClose
    rw [if_pos h]

theorem C7_crc_close_witness :
    crc32 [104, 105] ≠ 5 ∧
    crcClose ⟨[104, 105]⟩ none 5 =
      some (.crcMismatch (crc32 [104, 105]) 5) ∧
    crcClose ⟨[104, 105]⟩ none (crc32 [104, 105]) = none := by
  refine ⟨by decide, ?_, ?_⟩
  · exact (C7_crc_close ⟨[104, 105]⟩ [] 5).2.2 (by decide)
  · exact (C7_crc_close ⟨[104, 105]⟩ [] (crc32 [104, 105])).2.1.mpr rfl

/-- C10: Close-error precedence — if the wrapped close function returns
an error, `Close` of a `crcReader` returns exactly that error (the CRC
comparison is skipped), and any close outcome that differs from the
wrapped close's own result can only happen when the wrapped close
succeeded. -/
theorem C10_close_error_precedence (s : CrcReaderState) (crc : Nat)
    (r : Option VpkError) :
    (∀ err, r = some err → crcClose s r crc = some err) ∧
    (crcClose s r crc ≠ r → r = none) := by
  constructor
  · intro err hr
    subst hr
    rfl
  · intro hne
    cases r with
    | none => rfl
    | some err => exact absurd rfl hne

theorem C10_close_error_precedence_witness :
    (some VpkError.ioError = some VpkError.ioError) ∧
    crcClose ⟨[1, 2, 3]⟩ (some .ioError) 7 = some .ioError :=
  ⟨rfl, (C10_close_error_precedence ⟨[1, 2, 3]⟩ 7 (some .ioError)).1
    .ioError rfl⟩

theorem passOneGo_neg_idx {maxSize : Int} (hms : maxSize < 0) :
    ∀ (files : List SrcFile) (a : Int) (off : Nat)
      (l : List (entrypath × List Nat)),
      passOneGo maxSize a off files = .ok l →
      ∀ p ∈ l, p.1.vpk.ArchiveIndex = a := by
  intro files
  induction files with
  | nil =>
    intro a off l h p hp
    simp only [passOneGo, Except.ok.injEq] at h
    subst h
    simp at hp
  | cons c rest ih =>
    intro a off l h p hp
    rw [passOneGo] at h
    split at h
    · simp at h
    split at h
    · simp at h
    rename_i hlen hwrap
    simp only [] at h
    rw [if_neg (by omega)] at h
    split at h
    · simp at h
    rename_i l2 hrec
    simp only [Except.ok.injEq] at h
    subst h
    rcases List.mem_cons.mp hp with hp2 | hp2
    · subst hp2
      rfl
    · exact ih a _ l2 hrec p hp2

theorem wrap16_id {n : Int} (h0 : -32768 ≤ n) (h1 : n ≤ 32767) :
    wrap16 n = n := by
  unfold wrap16
  omega

theorem passOneGo_spec_bounded (C : Int) (hC : 0 ≤ C) :
    ∀ (files : List SrcFile) (a : Int) (off : Nat),
      (∀ f ∈ files, f.data.length < 2 ^ 32 ∧ C.toNat + f.data.length ≤ 2 ^ 32) →
      0 ≤ a → a + files.length ≤ 32768 →
      (off = 0 ∨ (off : Int) < C) →
      (passOneGo C a off files).map
          (fun l => l.map (fun p => p.1.vpk.ArchiveIndex)) =
        .ok (specAssignIdx C a off (files.map (fun f => f.data.length))) := by
  intro files
  induction files with
  | nil =>
    intro a off _ _ _ _
    simp [passOneGo, specAssignIdx, Except.map]
  | cons c rest ih =>
    intro a off hsz ha0 haN hoff
    obtain ⟨hc1, hc2⟩ := hsz c (by simp)
    have hsum : off + c.data.length < 2 ^ 32 := by
      rcases hoff with h | h
      · omega
      · omega
    have hmod : (off + c.data.length) % 2 ^ 32 = off + c.data.length :=
      Nat.mod_eq_of_lt hsum
    rw [passOneGo, if_neg (by omega)]
    simp only []
    rw [if_neg (by omega)]
    rw [List.map_cons, specAssignIdx]
    by_cases hroll : C ≤ ((off + c.data.length : Nat) : Int)
    · rw [if_pos (by rw [hmod]; exact ⟨hC, hroll⟩), if_pos hroll]
      cases rest with
      | nil =>
        simp [passOneGo, specAssignIdx, Except.map]
      | cons d rest2 =>
        have hw : wrap16 (a + 1) = a + 1 := by
          apply wrap16_id <;> simp at haN <;> omega
        rw [hw]
        have := ih (a + 1) 0
          (fun f hf => hsz f (by simp [hf]))
          (by omega) (by simp at haN ⊢; omega) (Or.inl rfl)
        revert this
        cases hres : passOneGo C (a + 1) 0 (d :: rest2) with
        | error err => intro this; simp [Except.map] at this
        | ok l0 =>
          intro this
          simp only [Except.map, Except.ok.injEq] at this
          simp only [Except.map, List.map_cons, Except.ok.injEq]
          rw [this]
          simp
    · rw [if_neg (by rw [hmod]; intro hcon; exact hroll hcon.2), if_neg hroll]
      rw [hmod]
      have := ih a (off + c.data.length)
        (fun f hf => hsz f (by simp [hf]))
        ha0 (by simp at haN ⊢; omega) (Or.inr (by omega))
      revert this
      cases hres : passOneGo C a (off + c.data.length) rest with
      | error err => intro this; simp [Except.map] at this
      | ok l0 =>
        intro this
        simp only [Except.map, Except.ok.injEq] at this
        simp only [Except.map, List.map_cons, Except.ok.injEq]
        rw [this]

theorem ceil_le_iff {S C k : Nat} (hS : 1 ≤ S) (hk : k = (C + S - 1) / S)
    (m : Nat) : C ≤ m * S ↔ k ≤ m := by
  subst hk
  have h2 : (C + S - 1) / S ≤ m ↔ C + S - 1 ≤ S * m + (S - 1) :=
    Nat.div_le_iff_le_mul_add_pred (by omega)
  rw [h2, Nat.mul_comm m S]
  omega

theorem specAssignIdx_uniform (S C k : Nat) (hS : 1 ≤ S) (hSC : S ≤ C)
    (hk : k = (C + S - 1) / S) :
    ∀ (lens : List Nat), (∀ n ∈ lens, n = S) → ∀ (j : Nat),
      specAssignIdx (C : Int) ((j / k : Nat) : Int) (j % k * S) lens =
        (List.range lens.length).map (fun i => (((j + i) / k : Nat) : Int)) := by
  have hkpos : 0 < k := by
    rw [hk]
    exact Nat.div_pos (by omega) (by omega)
  intro lens
  induction lens with
  | nil =>
    intro _ j
    simp [specAssignIdx]
  | cons n rest ih =>
    intro hlen j
    have hn : n = S := hlen n (by simp)
    rw [hn]
    have hjk := Nat.mod_lt j hkpos
    rw [specAssignIdx, List.length_cons, List.range_succ_eq_map,
      List.map_cons, List.map_map]
    by_cases hcase : j % k = k - 1
    · have hcond : C ≤ j % k * S + S := by
        have h3 : C ≤ (j % k + 1) * S := by
          rw [ceil_le_iff hS hk]
          omega
        calc C ≤ (j % k + 1) * S := h3
        _ = j % k * S + S := by ring
      rw [if_pos (by exact_mod_cast hcond)]
      have hj1 : j + 1 = (j / k + 1) * k := by
        have hdm := Nat.div_add_mod j k
        calc j + 1 = k * (j / k) + (j % k) + 1 := by rw [Nat.div_add_mod]
        _ = k * (j / k) + k := by omega
        _ = (j / k + 1) * k := by ring
      have hdiv : (j + 1) / k = j / k + 1 := by
        rw [hj1, Nat.mul_div_cancel _ hkpos]
      have hmod : (j + 1) % k = 0 := by
        rw [hj1, Nat.mul_mod_left]
      have hrec := ih (fun x hx => hlen x (by simp [hx])) (j + 1)
      rw [hdiv, hmod] at hrec
      simp only [Nat.zero_mul] at hrec
      rw [Nat.cast_add, Nat.cast_one] at hrec
      rw [hrec]
      simp only [Nat.add_zero]
      apply congrArg
      apply List.map_congr_left
      intro i hi
      simp only [Function.comp, Nat.succ_eq_add_one]
      rw [show j + 1 + i = j + (i + 1) from by omega]
    · have hcond : ¬ C ≤ j % k * S + S := by
        have h3 : ¬ C ≤ (j % k + 1) * S := by
          rw [ceil_le_iff hS hk]
          omega
        intro hcon
        exact h3 (by calc C ≤ j % k * S + S := hcon
          _ = (j % k + 1) * S := by ring)
      rw [if_neg (by exact_mod_cast hcond)]
      have hj1 : j + 1 = k * (j / k) + (j % k + 1) := by
        calc j + 1 = k * (j / k) + (j % k) + 1 := by rw [Nat.div_add_mod]
        _ = k * (j / k) + (j % k + 1) := by omega
      have hlt : j % k + 1 < k := by
        generalize hR : j % k = r at hjk hcase
        omega
      have hdiv : (j + 1) / k = j / k := by
        rw [hj1, Nat.mul_add_div hkpos, Nat.div_eq_of_lt hlt, Nat.add_zero]
      have hmod : (j + 1) % k = j % k + 1 := by
        rw [hj1, Nat.mul_add_mod, Nat.mod_eq_of_lt hlt]
      have hrec := ih (fun x hx => hlen x (by simp [hx])) (j + 1)
      rw [hdiv, hmod] at hrec
      rw [show (j % k + 1) * S = j % k * S + S from by ring] at hrec
      rw [hrec]
      simp only [Nat.add_zero]
      apply congrArg
      apply List.map_congr_left
      intro i hi
      simp only [Function.comp, Nat.succ_eq_add_one]
      rw [show j + 1 + i = j + (i + 1) from by omega]

/-- C6: Archive index assignment — with an unbounded size ceiling every
entry of pass 1 carries the sentinel index `0x7fff`; with a ceiling,
the assignment refines the specification's algorithm `specAssignIdx`
(indices from 0, running per-archive offset, roll to a new archive when
the offset reaches or exceeds the ceiling after adding a file — a file
larger than the ceiling is still accepted, as the refinement holds with
no bound relating file sizes to the ceiling). -/
theorem C6_archive_index_assignment (maxSize : Int) (files : List SrcFile) :
    (maxSize < 0 → ∀ l, createPassOne maxSize files = .ok l →
      ∀ p ∈ l, p.1.vpk.ArchiveIndex = 0x7fff) ∧
    (0 ≤ maxSize →
      (∀ f ∈ files, f.data.length < 2 ^ 32 ∧
        maxSize.toNat + f.data.length ≤ 2 ^ 32) →
      files.length ≤ 32768 →
      (createPassOne maxSize files).map
          (fun l => l.map (fun p => p.1.vpk.ArchiveIndex)) =
        .ok (specAssignIdx maxSize 0 0 (files.map (fun f => f.data.length)))) := by
  constructor
  · intro hms l h p hp
    unfold createPassOne at h
    rw [if_pos hms] at h
    exact passOneGo_neg_idx hms files _ 0 l h p hp
  · intro hms hsz hN
    unfold createPassOne
    rw [if_neg (by omega)]
    exact passOneGo_spec_bounded maxSize hms files 0 0 hsz (by omega)
      (by simpa using hN) (Or.inl rfl)

theorem C6_archive_index_assignment_witness :
    createPassOne (-1) [⟨[97], [98], [99], [2]⟩] =
      .ok [(⟨[97], [98], [99], ⟨crc32 [2], 0, 32767, 0, 1, 65535⟩, []⟩, [2])] ∧
    (∀ p ∈ ([(⟨[97], [98], [99], ⟨crc32 [2], 0, 32767, 0, 1, 65535⟩, []⟩,
        [2])] : List (entrypath × List Nat)), p.1.vpk.ArchiveIndex = 0x7fff) ∧
    (createPassOne 3 [⟨[97], [98], [99], [1, 1, 1, 1, 1]⟩]).map
        (fun l => l.map (fun p => p.1.vpk.ArchiveIndex)) =
      .ok (specAssignIdx 3 0 0 [5]) := by
  have h1 : createPassOne (-1) [⟨[97], [98], [99], [2]⟩] =
      .ok [(⟨[97], [98], [99], ⟨crc32 [2], 0, 32767, 0, 1, 65535⟩, []⟩,
        [2])] := by rfl
  refine ⟨h1, ?_, ?_⟩
  · exact (C6_archive_index_assignment (-1) _).1 (by norm_num) _ h1
  · exact (C6_archive_index_assignment 3 [⟨[97], [98], [99], [1, 1, 1, 1, 1]⟩]).2
      (by norm_num) (by decide) (by decide)

/-- C2 counterexample: four 3-byte files under ceiling 4 — the code
assigns archives `[0, 0, 1, 1]` (the offset resets to zero on rollover),
while the claimed closed form `floor(i*S/C)` gives `[0, 0, 1, 2]`: at
file `i = 3` the code assigns archive 1 but `3*3/4 = 2`. -/
theorem C2_closed_form_counterexample :
    (createPassOne 4 [⟨[32], [97], [98], [7, 7, 7]⟩,
        ⟨[32], [98], [98], [7, 7, 7]⟩, ⟨[32], [99], [98], [7, 7, 7]⟩,
        ⟨[32], [100], [98], [7, 7, 7]⟩]).map
        (fun l => l.map (fun p => p.1.vpk.ArchiveIndex)) =
      .ok [0, 0, 1, 1] ∧
    (List.range 4).map (fun i => ((i * 3 / 4 : Nat) : Int)) = [0, 0, 1, 2] ∧
    ([0, 0, 1, 1] : List Int) ≠ [0, 0, 1, 2] := by
  refine ⟨by decide, by decide, by decide⟩

/-- C2 (amended): writing `N` files of exactly `S` bytes each under a
ceiling `C` with `1 ≤ S ≤ C` places file `i` (zero-based) in archive
`i / ceil(C/S)` — because the running offset resets to zero whenever it
reaches or exceeds the ceiling, each archive takes exactly
`ceil(C/S) = (C+S-1)/S` files, not the `floor(i*S/C)` of the original
claim (which agrees only when `S` divides `C`). -/
theorem C2_archive_splitting (S C : Nat) (files : List SrcFile)
    (hS : 1 ≤ S) (hSC : S ≤ C) (h32 : C + S ≤ 2 ^ 32)
    (hN : files.length ≤ 32768)
    (hsize : ∀ f ∈ files, f.data.length = S) :
    (createPassOne (C : Int) files).map
        (fun l => l.map (fun p => p.1.vpk.ArchiveIndex)) =
      .ok ((List.range files.length).map
        (fun i => ((i / ((C + S - 1) / S) : Nat) : Int))) := by
  unfold createPassOne
  rw [if_neg (by omega)]
  have hspec := passOneGo_spec_bounded (C : Int) (by omega) files 0 0
    (fun f hf => by
      have := hsize f hf
      constructor
      · omega
      · simp only [Int.toNat_natCast]
        omega)
    (by omega) (by simpa using hN) (Or.inl rfl)
  rw [hspec]
  have huni := specAssignIdx_uniform S C ((C + S - 1) / S) hS hSC rfl
    (files.map (fun f => f.data.length))
    (fun n hn => by
      obtain ⟨f, hf, hfe⟩ := List.mem_map.mp hn
      rw [← hfe]
      exact hsize f hf) 0
  simp only [Nat.zero_div, Nat.zero_mod, Nat.zero_mul, Nat.cast_zero,
    Nat.zero_add, List.length_map] at huni
  rw [huni]

theorem C2_archive_splitting_witness :
    ((1 : Nat) ≤ 3 ∧ (3 : Nat) ≤ 4 ∧ (4 + 3 : Nat) ≤ 2 ^ 32 ∧
      ([⟨[32], [97], [98], [7, 7, 7]⟩, ⟨[32], [98], [98], [7, 7, 7]⟩,
        ⟨[32], [99], [98], [7, 7, 7]⟩, ⟨[32], [100], [98], [7, 7, 7]⟩] :
          List SrcFile).length ≤ 32768) ∧
    (createPassOne ((4 : Nat) : Int) [⟨[32], [97], [98], [7, 7, 7]⟩,
        ⟨[32], [98], [98], [7, 7, 7]⟩, ⟨[32], [99], [98], [7, 7, 7]⟩,
        ⟨[32], [100], [98], [7, 7, 7]⟩]).map
        (fun l => l.map (fun p => p.1.vpk.ArchiveIndex)) =
      .ok ((List.range ([⟨[32], [97], [98], [7, 7, 7]⟩,
        ⟨[32], [98], [98], [7, 7, 7]⟩, ⟨[32], [99], [98], [7, 7, 7]⟩,
        ⟨[32], [100], [98], [7, 7, 7]⟩] : List SrcFile).length).map
          (fun i => ((i / ((4 + 3 - 1) / 3) : Nat) : Int))) ∧
    (List.range 4).map (fun i => ((i / ((4 + 3 - 1) / 3) : Nat) : Int)) =
      [0, 0, 1, 1] := by
  refine ⟨by decide, ?_, by decide⟩
  exact C2_archive_splitting 3 4 _ (by decide) (by decide) (by norm_num)
    (by decide) (by decide)

theorem drop_append_plus (x y : List Nat) (n : Nat) :
    (x ++ y).drop (x.length + n) = y.drop n := by
  rw [← List.drop_drop, List.drop_left]

theorem flatten_get (ls : List (List Nat)) :
    ∀ (i : Nat) (hi : i < ls.length),
      ((ls.flatten).drop (((ls.take i).map List.length).sum)).take
          (ls.get ⟨i, hi⟩).length = ls.get ⟨i, hi⟩ := by
  induction ls with
  | nil => intro i hi; simp at hi
  | cons x rest ih =>
    intro i hi
    cases i with
    | zero =>
      simp only [List.take_zero, List.map_nil, List.sum_nil, List.drop_zero,
        List.get, List.flatten_cons]
      rw [List.take_left]
    | succ j =>
      simp only [List.take_succ_cons, List.map_cons, List.sum_cons,
        List.flatten_cons, List.get]
      rw [drop_append_plus]
      exact ih j (by simpa using hi)

theorem passOneGo_unbounded_layout :
    ∀ (files : List SrcFile) (a : Int) (off : Nat)
      (l : List (entrypath × List Nat)),
      off < 2 ^ 32 →
      passOneGo (-1) a off files = .ok l →
      ∀ (i : Nat) (hi : i < l.length),
        (l.get ⟨i, hi⟩).1.vpk.Offset =
          off + ((l.take i).map (fun p => p.2.length)).sum ∧
        (l.get ⟨i, hi⟩).1.vpk.Length = (l.get ⟨i, hi⟩).2.length := by
  intro files
  induction files with
  | nil =>
    intro a off l hoff h i hi
    simp only [passOneGo, Except.ok.injEq] at h
    subst h
    simp at hi
  | cons c rest ih =>
    intro a off l hoff h i hi
    rw [passOneGo] at h
    split at h
    · simp at h
    split at h
    · simp at h
    rename_i hlen hwrap
    simp only [] at h
    rw [if_neg (by omega)] at h
    split at h
    · simp at h
    rename_i l2 hrec
    simp only [Except.ok.injEq] at h
    have hsum : off + c.data.length < 2 ^ 32 := by
      by_contra hcon
      apply hwrap
      have : (off + c.data.length) % 2 ^ 32 = off + c.data.length - 2 ^ 32 := by
        omega
      omega
    rw [Nat.mod_eq_of_lt hsum] at hrec
    subst h
    cases i with
    | zero =>
      exact ⟨by simp, rfl⟩
    | succ j =>
      have hj : j < l2.length := by simpa using hi
      obtain ⟨ho, hl⟩ := ih a (off + c.data.length) l2 hsum hrec j hj
      constructor
      · simp only [List.get, List.take_succ_cons, List.map_cons, List.sum_cons]
        rw [ho]
        omega
      · exact hl

/-- C3 (amended): in unbounded mode `Create` writes the payloads into the
main file directly after the tree in the caller-supplied order (the
pass-3 loop ranges over the unsorted `entries` slice), not in tree-sorted
order; each entry's payload nevertheless starts exactly at main-file
position `12 + treeLength + offset` where `offset` is the value recorded
in that entry's directory record during pass 1. -/
theorem C3_payload_layout (files : List SrcFile)
    (l : List (entrypath × List Nat)) (m : List Nat)
    (h1 : createPassOne (-1) files = .ok l)
    (h2 : Create (-1) files = .ok m) :
    m = le32 0x55aa1234 ++ le32 1 ++
      le32 (encodeTree (sortEntries (l.map (fun p => p.1)))).length ++
      encodeTree (sortEntries (l.map (fun p => p.1))) ++
      (l.map (fun p => p.2)).flatten ∧
    ∀ (i : Nat) (hi : i < l.length),
      (m.drop (12 + (encodeTree (sortEntries (l.map (fun p => p.1)))).length +
        (l.get ⟨i, hi⟩).1.vpk.Offset)).take (l.get ⟨i, hi⟩).1.vpk.Length =
        (l.get ⟨i, hi⟩).2 := by
  unfold Create at h2
  rw [h1] at h2
  simp only [] at h2
  split at h2
  · simp at h2
  rename_i htree
  rw [if_pos (show (-1 : Int) < 0 by norm_num)] at h2
  simp only [Except.ok.injEq] at h2
  subst h2
  refine ⟨rfl, ?_⟩
  intro i hi
  have h1' : passOneGo (-1) 0x7fff 0 files = .ok l := by
    unfold createPassOne at h1
    rw [if_pos (show (-1 : Int) < 0 by norm_num)] at h1
    exact h1
  obtain ⟨ho, hl⟩ :=
    passOneGo_unbounded_layout files 0x7fff 0 l (by norm_num) h1' i hi
  rw [ho, hl, Nat.zero_add]
  have hxlen : (le32 0x55aa1234 ++ le32 1 ++
      le32 (encodeTree (sortEntries (l.map (fun p => p.1)))).length ++
      encodeTree (sortEntries (l.map (fun p => p.1)))).length =
      12 + (encodeTree (sortEntries (l.map (fun p => p.1)))).length := by
    simp [le32, List.length_append]
    omega
  rw [show 12 + (encodeTree (sortEntries (l.map (fun p => p.1)))).length +
      ((l.take i).map (fun p => p.2.length)).sum =
      (le32 0x55aa1234 ++ le32 1 ++
        le32 (encodeTree (sortEntries (l.map (fun p => p.1)))).length ++
        encodeTree (sortEntries (l.map (fun p => p.1)))).length +
      ((l.take i).map (fun p => p.2.length)).sum from by rw [hxlen]]
  rw [drop_append_plus]
  have hfl := flatten_get (l.map (fun p => p.2)) i (by simpa using hi)
  simp only [← List.map_take, List.map_map, Function.comp, List.get_map] at hfl
  exact hfl

/-- C3 counterexample: two files given to `Create` in non-tree order —
caller order `(ext "b", 1 byte)` then `(ext "a", 2 bytes)`, while tree
order puts extension `"a"` first.  The payload region of the produced
main file is `[9] ++ [7, 8]` (caller order), not the tree-sorted
concatenation `[7, 8] ++ [9]`, refuting "written in tree-sorted order";
the tree and its length occupy bytes 12..64, so the payload region
starts at offset 65. -/
theorem C3_payload_order_counterexample :
    (Create (-1) [⟨[32], [122], [98], [9]⟩,
        ⟨[32], [97], [97], [7, 8]⟩]).map (fun m => m.drop 65) =
      .ok ([9] ++ [7, 8]) ∧
    entryLess ⟨[32], [97], [97], ⟨crc32 [7, 8], 0, 32767, 1, 2, 65535⟩, []⟩
      ⟨[32], [122], [98], ⟨crc32 [9], 0, 32767, 0, 1, 65535⟩, []⟩ = true ∧
    ([9] ++ [7, 8] : List Nat) ≠ [7, 8] ++ [9] := by
  refine ⟨by decide, by decide, by decide⟩

theorem C3_payload_layout_witness :
    createPassOne (-1) [⟨[32], [122], [98], [9]⟩, ⟨[32], [97], [97], [7, 8]⟩] =
      .ok [(⟨[32], [122], [98], ⟨crc32 [9], 0, 32767, 0, 1, 65535⟩, []⟩, [9]),
        (⟨[32], [97], [97], ⟨crc32 [7, 8], 0, 32767, 1, 2, 65535⟩, []⟩,
          [7, 8])] ∧
    Create (-1) [⟨[32], [122], [98], [9]⟩, ⟨[32], [97], [97], [7, 8]⟩] =
      .ok (le32 0x55aa1234 ++ le32 1 ++ le32 53 ++
        encodeTree (sortEntries
          [⟨[32], [122], [98], ⟨crc32 [9], 0, 32767, 0, 1, 65535⟩, []⟩,
           ⟨[32], [97], [97], ⟨crc32 [7, 8], 0, 32767, 1, 2, 65535⟩, []⟩]) ++
        ([9] ++ ([7, 8] ++ []))) ∧
    ((le32 0x55aa1234 ++ le32 1 ++ le32 53 ++
        encodeTree (sortEntries
          [⟨[32], [122], [98], ⟨crc32 [9], 0, 32767, 0, 1, 65535⟩, []⟩,
           ⟨[32], [97], [97], ⟨crc32 [7, 8], 0, 32767, 1, 2, 65535⟩, []⟩]) ++
        ([9] ++ ([7, 8] ++ []))).drop (12 + 53 + 0)).take 1 = [9] ∧
    ((le32 0x55aa1234 ++ le32 1 ++ le32 53 ++
        encodeTree (sortEntries
          [⟨[32], [122], [98], ⟨crc32 [9], 0, 32767, 0, 1, 65535⟩, []⟩,
           ⟨[32], [97], [97], ⟨crc32 [7, 8], 0, 32767, 1, 2, 65535⟩, []⟩]) ++
        ([9] ++ ([7, 8] ++ []))).drop (12 + 53 + 1)).take 2 = [7, 8] := by
  have h1 : createPassOne (-1) [⟨[32], [122], [98], [9]⟩,
      ⟨[32], [97], [97], [7, 8]⟩] =
      .ok [(⟨[32], [122], [98], ⟨crc32 [9], 0, 32767, 0, 1, 65535⟩, []⟩, [9]),
        (⟨[32], [97], [97], ⟨crc32 [7, 8], 0, 32767, 1, 2, 65535⟩, []⟩,
          [7, 8])] := by rfl
  have h2 : Create (-1) [⟨[32], [122], [98], [9]⟩,
      ⟨[32], [97], [97], [7, 8]⟩] =
      .ok (le32 0x55aa1234 ++ le32 1 ++ le32 53 ++
        encodeTree (sortEntries
          [⟨[32], [122], [98], ⟨crc32 [9], 0, 32767, 0, 1, 65535⟩, []⟩,
           ⟨[32], [97], [97], ⟨crc32 [7, 8], 0, 32767, 1, 2, 65535⟩, []⟩]) ++
        ([9] ++ ([7, 8] ++ []))) := by rfl
  have hthm := C3_payload_layout _ _ _ h1 h2
  exact ⟨h1, h2, hthm.2 0 (by decide), hthm.2 1 (by decide)⟩

theorem passOneGo_oversize :
    ∀ (files : List SrcFile) (maxSize a : Int) (off : Nat),
      (∃ f ∈ files, 2 ^ 32 ≤ f.data.length) →
      passOneGo maxSize a off files = .error .fileTooBig := by
  intro files
  induction files with
  | nil =>
    intro maxSize a off h
    simp at h
  | cons c rest ih =>
    intro maxSize a off h
    rw [passOneGo]
    by_cases hc : 2 ^ 32 ≤ c.data.length
    · rw [if_pos hc]
    · rw [if_neg hc]
      simp only []
      have hrest : ∃ f ∈ rest, 2 ^ 32 ≤ f.data.length := by
        rcases h with ⟨f, hf, hfl⟩
        rcases List.mem_cons.mp hf with hf2 | hf2
        · exact absurd (hf2 ▸ hfl) hc
        · exact ⟨f, hf2, hfl⟩
      split
      · rfl
      · rw [ih _ _ _ hrest]

/-- C8: FileTooBig guards — `Create` fails with `FileTooBig` when a
source file's length does not fit in 32 bits; one pass-1 step fails with
`FileTooBig` when `offset + length` wraps around the `uint32` range; and
`Create` fails with `FileTooBig` when pass 1 succeeds but the serialized
tree buffer's length does not fit in 32 bits. -/
theorem C8_file_too_big_guards (maxSize : Int) (files : List SrcFile) :
    ((∃ f ∈ files, 2 ^ 32 ≤ f.data.length) →
      Create maxSize files = .error .fileTooBig) ∧
    (∀ (a : Int) (off : Nat) (c : SrcFile) (rest : List SrcFile),
      c.data.length < 2 ^ 32 → off < 2 ^ 32 →
      2 ^ 32 ≤ off + c.data.length →
      passOneGo maxSize a off (c :: rest) = .error .fileTooBig) ∧
    (∀ l, createPassOne maxSize files = .ok l →
      2 ^ 32 ≤ (encodeTree (sortEntries (l.map (fun p => p.1)))).length →
      Create maxSize files = .error .fileTooBig) := by
  refine ⟨?_, ?_, ?_⟩
  · intro h
    unfold Create createPassOne
    rw [passOneGo_oversize files maxSize _ 0 h]
  · intro a off c rest h1 h2 h3
    rw [passOneGo, if_neg (by omega)]
    simp only []
    rw [if_pos (by omega)]
  · intro l h1 h2
    unfold Create
    rw [h1]
    simp only []
    rw [if_pos h2]

theorem C8_file_too_big_guards_witness :
    ((2 : Nat) ^ 32 ≤ (List.replicate (2 ^ 32) (0 : Nat)).length) ∧
    Create (-1) [⟨[97], [98], [99], List.replicate (2 ^ 32) 0⟩] =
      .error .fileTooBig ∧
    passOneGo 5 0 (2 ^ 32 - 1) [⟨[97], [98], [99], [7]⟩] =
      .error .fileTooBig ∧
    Create (-1) [⟨[97], List.replicate (2 ^ 32) 1, [101], []⟩] =
      .error .fileTooBig := by
  refine ⟨by rw [List.length_replicate], ?_, ?_, ?_⟩
  · exact (C8_file_too_big_guards (-1)
      [⟨[97], [98], [99], List.replicate (2 ^ 32) 0⟩]).1
      ⟨⟨[97], [98], [99], List.replicate (2 ^ 32) 0⟩,
        List.mem_singleton.mpr rfl, by rw [List.length_replicate]⟩
  · exact (C8_file_too_big_guards 5 []).2.1 0 (2 ^ 32 - 1)
      ⟨[97], [98], [99], [7]⟩ [] (by norm_num) (by norm_num) (by norm_num)
  · have h1 : createPassOne (-1)
        [⟨[97], List.replicate (2 ^ 32) 1, [101], []⟩] =
        .ok [(⟨[97], List.replicate (2 ^ 32) 1, [101],
          ⟨crc32 [], 0, 32767, 0, 0, 65535⟩, []⟩, [])] := by rfl
    refine (C8_file_too_big_guards (-1)
      [⟨[97], List.replicate (2 ^ 32) 1, [101], []⟩]).2.2 _ h1 ?_
    show 2 ^ 32 ≤ (encodeTree (sortEntries
      [⟨[97], List.replicate (2 ^ 32) 1, [101],
        ⟨crc32 [], 0, 32767, 0, 0, 65535⟩, []⟩])).length
    rw [show sortEntries [⟨[97], List.replicate (2 ^ 32) 1, [101],
        ⟨crc32 [], 0, 32767, 0, 0, 65535⟩, []⟩] =
        [⟨[97], List.replicate (2 ^ 32) 1, [101],
          ⟨crc32 [], 0, 32767, 0, 0, 65535⟩, []⟩] from rfl]
    rw [encodeTree, encodeTail, if_neg (by simp), writeString, writeString,
      writeString]
    simp only [List.length_append, List.length_replicate]
    omega
